import Mathlib

/-!
Shallow embedding of the chess rules engine in `src/logic.rs` of the
`bevy-chess` repository, together with theorems settling the frozen claims
about it.

Conventions of the embedding:
* Rust `i8` coordinates become `Int` (all arithmetic the engine performs on
  reachable positions stays far from the `i8` boundaries).
* `HashMap<Coordinate, Piece>` becomes an association list
  `List (Coordinate × Piece)`; `insert` replaces an existing binding and
  `remove` deletes it, as for the hash map.  The only map iterations the
  engine performs (`is_checked`, the king search of `get_valid_moves`) are
  iteration-order independent in the situations the claims speak about.
* `panic!` / `unwrap` failures become `Option.none`; recursion of
  `move_piece` is expressed with an explicit fuel parameter, and unbounded
  `while` loops with a fuel large enough to be exact for every input (the
  loops move monotonically through the 8-wide board window, so at most
  9 iterations can ever execute before the loop exits).
-/

namespace BevyChess

inductive PieceKind where
  | PAWN
  | ROOK
  | KNIGHT
  | BISHOP
  | KING
  | QUEEN
deriving DecidableEq

inductive PieceColor where
  | WHITE
  | BLACK
deriving DecidableEq

/-- `Coordinate(file, rank)` from the source; `.1` is the file, `.2` the rank. -/
abbrev Coordinate := Int × Int

structure Piece where
  kind : PieceKind
  color : PieceColor
  square : Coordinate
  moved : Bool
deriving DecidableEq

structure Board where
  pieces : List (Coordinate × Piece)
  on_move : PieceColor
  turn_number : Nat
  en_pessant_file : Option Int
deriving DecidableEq

/-- `HashMap::get`: the value bound to key `c`, if any. -/
def mapGet (l : List (Coordinate × Piece)) (c : Coordinate) : Option Piece :=
  (l.find? (fun e => decide (e.1 = c))).map (fun e => e.2)

/-- `HashMap::remove`: drop the binding of key `c`. -/
def mapErase (l : List (Coordinate × Piece)) (c : Coordinate) :
    List (Coordinate × Piece) :=
  l.filter (fun e => decide (¬ e.1 = c))

/-- `HashMap::insert`: bind key `c` to `p`, replacing any previous binding. -/
def mapInsert (l : List (Coordinate × Piece)) (c : Coordinate) (p : Piece) :
    List (Coordinate × Piece) :=
  (c, p) :: mapErase l c

/-- The bounds test `0 <= file <= 7 && 0 <= rank <= 7` the source repeats. -/
def onBoard (c : Coordinate) : Prop :=
  0 ≤ c.1 ∧ c.1 ≤ 7 ∧ 0 ≤ c.2 ∧ c.2 ≤ 7

instance : DecidablePred onBoard := fun c => by
  unfold onBoard; infer_instance

def ROOK_PATTERN : List Coordinate := [(1, 0), (-1, 0), (0, 1), (0, -1)]

def BISHOP_PATTERN : List Coordinate := [(1, 1), (-1, 1), (1, -1), (-1, -1)]

def KNIGHT_PATTERN : List Coordinate :=
  [(1, 2), (2, 1), (-1, 2), (2, -1), (1, -2), (-2, 1), (-1, -2), (-2, -1)]

/-- The king's `for x in -1..=1 { for y in -1..=1 }` double loop, with the
`(0, 0)` pair skipped, in the iteration order of the source. -/
def KING_DELTAS : List Coordinate :=
  [(-1, -1), (-1, 0), (-1, 1), (0, -1), (0, 1), (1, -1), (1, 0), (1, 1)]

/-- Adding a delta to a square. -/
def stepD (c d : Coordinate) : Coordinate := (c.1 + d.1, c.2 + d.2)

/-- The `let direction = if piece.color == WHITE { 1 } else { -1 }` the
source repeats in every pawn-related branch. -/
def pawnDirection (piece : Piece) : Int :=
  if piece.color = .WHITE then 1 else -1

/-- The walking loop of the `ROOK | BISHOP | QUEEN` arm of `looking_at`:
step from `pos` by `d`, stop past the edge, stop at the first occupied
square (recording it only when the occupant is an enemy), record empty
squares and continue.  Fuel 16 is exact: the walk moves monotonically in a
nonzero component of `d`, so it can execute at most 9 iterations. -/
def walk (b : Board) (color : PieceColor) :
    Nat → Coordinate → Coordinate → List Coordinate
  | 0, _, _ => []
  | n + 1, pos, d =>
    let check := stepD pos d
    if onBoard check then
      match mapGet b.pieces check with
      | some occupying =>
        if occupying.color ≠ color then [check] else []
      | none => check :: walk b color n check d
    else []

/-- The movement pattern chosen by the slider arm of `looking_at`. -/
def sliderPattern (k : PieceKind) : List Coordinate :=
  match k with
  | .ROOK => ROOK_PATTERN
  | .BISHOP => BISHOP_PATTERN
  | .QUEEN => ROOK_PATTERN ++ BISHOP_PATTERN
  | _ => []

/-- `Board::looking_at`. -/
def looking_at (b : Board) (piece : Piece) : List Coordinate :=
  match piece.kind with
  | .KING =>
    KING_DELTAS.filterMap (fun d =>
      let new_square := stepD piece.square d
      if onBoard new_square then
        match mapGet b.pieces new_square with
        | some occupying =>
          if piece.color = occupying.color then none else some new_square
        | none => some new_square
      else none)
  | .ROOK | .BISHOP | .QUEEN =>
    (sliderPattern piece.kind).flatMap (fun d => walk b piece.color 16 piece.square d)
  | .KNIGHT =>
    KNIGHT_PATTERN.filterMap (fun d =>
      let moved := stepD piece.square d
      if onBoard moved then
        match mapGet b.pieces moved with
        | some occupying =>
          if piece.color = occupying.color then none else some moved
        | none => some moved
      else none)
  | .PAWN =>
    let direction : Int := pawnDirection piece
    ([((1 : Int), direction), (-1, direction)]).filterMap (fun d =>
      let capture_square := stepD piece.square d
      if 0 ≤ capture_square.1 ∧ capture_square.1 ≤ 7 then
        match mapGet b.pieces capture_square with
        | some occupying =>
          if piece.color ≠ occupying.color then some capture_square else none
        | none => none
      else none)

/-- `Board::is_checked`. -/
def is_checked (b : Board) (piece : Piece) : Bool :=
  b.pieces.any (fun e =>
    decide (e.2.color ≠ piece.color) && decide (piece.square ∈ looking_at b e.2))

/-- The `potential_moves` vector of `get_valid_moves` right before the
self-check filtering loop: `looking_at` plus, for a pawn, the one-step and
(for a never-moved pawn) two-step forward pushes onto empty in-range
squares. -/
def candidateMoves (b : Board) (piece : Piece) : List Coordinate :=
  let base := looking_at b piece
  if piece.kind = .PAWN then
    let direction : Int := pawnDirection piece
    let following : Coordinate := (piece.square.1, piece.square.2 + direction)
    if mapGet b.pieces following = none ∧ 0 ≤ following.2 ∧ following.2 ≤ 7 then
      let following_following : Coordinate := (following.1, following.2 + direction)
      if piece.moved = false ∧ mapGet b.pieces following_following = none ∧
          0 ≤ following_following.2 ∧ following_following.2 ≤ 7 then
        base ++ [following, following_following]
      else
        base ++ [following]
    else base
  else base

/-- The `potential_board` built for one candidate square: clone the board,
remove the piece from its origin, insert a copy with updated `square` at the
candidate. -/
def simBoard (b : Board) (piece : Piece) (m : Coordinate) : Board :=
  { b with pieces := mapInsert (mapErase b.pieces piece.square) m { piece with square := m } }

/-- The `find_map` locating a king of the given color (the `panic!("no king")`
site of `get_valid_moves` fires when it returns `none`). -/
def findKing (l : List (Coordinate × Piece)) (color : PieceColor) : Option Piece :=
  (l.find? (fun e => decide (e.2.kind = .KING) && decide (e.2.color = color))).map
    (fun e => e.2)

/-- The self-check filtering loop of `get_valid_moves`: keep each candidate
whose simulated position leaves this color's king unchecked; `none` models
the `panic!("no king")` reached when a simulated position has no such
king. -/
def filterSelfCheck (b : Board) (piece : Piece) :
    List Coordinate → Option (List Coordinate)
  | [] => some []
  | m :: ms =>
    let potential_board := simBoard b piece m
    match findKing potential_board.pieces piece.color with
    | none => none
    | some king =>
      match filterSelfCheck b piece ms with
      | none => none
      | some rest =>
        some (if is_checked potential_board king then rest else m :: rest)

/-- The `while` loop of the castling branch: starting from `distance = 2`,
while `square.0 + direction*distance` is in `[0, 8)`, increment `distance`
and inspect the square there; an empty square continues the scan, and the
first occupied square answers whether it holds a same-color never-moved
rook.  Fuel 12 is exact: the scanned file moves monotonically through the
8-wide window, so the loop body runs at most 8 times. -/
def castleScanGo (b : Board) (piece : Piece) (direction : Int) :
    Nat → Int → Bool
  | 0, _ => false
  | n + 1, distance =>
    if 0 ≤ piece.square.1 + direction * distance ∧
        piece.square.1 + direction * distance < 8 then
      match mapGet b.pieces
          (piece.square.1 + direction * (distance + 1), piece.square.2) with
      | none => castleScanGo b piece direction n (distance + 1)
      | some occupying =>
        decide (occupying.kind = .ROOK) && decide (occupying.color = piece.color) &&
          decide (occupying.moved = false)
    else false

def castleScan (b : Board) (piece : Piece) (direction : Int) : Bool :=
  castleScanGo b piece direction 12 2

/-- One direction of the castling branch: append the two-steps-away square
when the adjacent square is already a filtered move, the two-steps-away
square is unoccupied, a synthetic king there would not be checked, and the
outward scan finds a same-color never-moved rook first. -/
def castleDir (b : Board) (piece : Piece) (moves : List Coordinate)
    (direction : Int) : List Coordinate :=
  let rank := piece.square.2
  if (piece.square.1 + direction, rank) ∈ moves ∧
      mapGet b.pieces (piece.square.1 + direction * 2, rank) = none ∧
      is_checked b
        { kind := .KING, color := piece.color,
          square := (piece.square.1 + direction * 2, rank), moved := false } = false ∧
      castleScan b piece direction = true then
    moves ++ [(piece.square.1 + direction * 2, rank)]
  else moves

/-- The castling stage of `get_valid_moves`: for a never-moved, not
currently checked king, try directions `-1` then `1`. -/
def castleStage (b : Board) (piece : Piece) (moves : List Coordinate) :
    List Coordinate :=
  if piece.kind = .KING ∧ piece.moved = false ∧ is_checked b piece = false then
    castleDir b piece (castleDir b piece moves (-1)) 1
  else moves

/-- The en-passant stage of `get_valid_moves`: for a pawn on its color's
eligibility rank while `en_pessant_file` is set, append the forward
diagonal toward the matching adjacent file. -/
def enPassantStage (b : Board) (piece : Piece) (moves : List Coordinate) :
    List Coordinate :=
  if piece.kind = .PAWN ∧ b.en_pessant_file ≠ none ∧
      piece.square.2 = (if piece.color = .WHITE then (4 : Int) else 3) then
    let direction : Int := pawnDirection piece
    moves ++ ([(-1 : Int), 1].filterMap (fun delta =>
      if b.en_pessant_file = some (piece.square.1 + delta) then
        some (piece.square.1 + delta, piece.square.2 + direction)
      else none))
  else moves

/-- `Board::get_valid_moves`; `none` models the `panic!("no king")`. -/
def get_valid_moves (b : Board) (piece : Piece) : Option (List Coordinate) :=
  (filterSelfCheck b piece (candidateMoves b piece)).map (fun moves =>
    enPassantStage b piece (castleStage b piece moves))

/-- In the source `get_valid_moves` borrows the board immutably (`&self`)
and clones it for every simulation; as a state transformer the call returns
its result together with the untouched board. -/
def get_valid_moves_call (b : Board) (piece : Piece) :
    Option (List Coordinate) × Board :=
  (get_valid_moves b piece, b)

def BACK_RANK : List PieceKind :=
  [.ROOK, .KNIGHT, .BISHOP, .KING, .QUEEN, .BISHOP, .KNIGHT, .ROOK]

/-- `Board::new`. -/
def Board.new : Board :=
  let pieces :=
    ([PieceColor.WHITE, PieceColor.BLACK]).foldl (fun acc color =>
      let row : Int := if color = PieceColor.WHITE then 0 else 7
      let acc1 := BACK_RANK.enum.foldl (fun acc2 ik =>
        let coordinate : Coordinate := ((ik.1 : Int), row)
        mapInsert acc2 coordinate
          { kind := ik.2, color := color, square := coordinate, moved := false }) acc
      let pawn_row : Int := if color = PieceColor.WHITE then 1 else 6
      (List.range 8).foldl (fun acc2 col =>
        let coordinate : Coordinate := ((col : Int), pawn_row)
        mapInsert acc2 coordinate
          { kind := .PAWN, color := color, square := coordinate, moved := false }) acc1)
      []
  { pieces := pieces, on_move := .WHITE, turn_number := 0, en_pessant_file := none }

/-- The `while` loop of the castling follow-through in `move_piece`:
starting from `position = to.0`, while `position` is in `[0, 8)`, step by
`direction` and return the first occupied coordinate on `to`'s rank.
Fuel 12 is exact, as for `castleScanGo`. -/
def rookSearch (l : List (Coordinate × Piece)) (toC : Coordinate)
    (direction : Int) : Nat → Int → Option Coordinate
  | 0, _ => none
  | n + 1, position =>
    if 0 ≤ position ∧ position < 8 then
      let position' := position + direction
      match mapGet l (position', toC.2) with
      | none => rookSearch l toC direction n position'
      | some _ => some (position', toC.2)
    else none

/-- `Board::move_piece`, with an explicit fuel bounding the recursion of the
castling follow-through; `none` models the `unwrap` panic on an empty
origin (or exhausted fuel). -/
def move_piece : Nat → Board → Coordinate → Coordinate → Option Board
  | 0, _, _, _ => none
  | n + 1, b, fromC, toC =>
    match mapGet b.pieces fromC with
    | none => none
    | some p0 =>
      let piece : Piece := { p0 with moved := true, square := toC }
      let capture : Bool := (mapGet b.pieces toC).isSome
      let b1 : Board := { b with pieces := mapErase (mapInsert b.pieces toC piece) fromC }
      let distance := toC.1 - fromC.1
      let afterCastle : Option Board :=
        if piece.kind = .KING ∧ 1 < distance.natAbs then
          let direction := Int.sign distance
          match rookSearch b1.pieces toC direction 12 toC.1 with
          | none => some b1
          | some coordinate => move_piece n b1 coordinate (fromC.1 + direction, fromC.2)
        else some b1
      match afterCastle with
      | none => none
      | some b2 =>
        let b3 : Board :=
          if piece.kind = .PAWN ∧ capture = false ∧ ¬ fromC.1 = toC.1 then
            { b2 with pieces := mapErase b2.pieces (toC.1, fromC.2) }
          else b2
        some { b3 with en_pessant_file :=
          (if piece.kind = .PAWN ∧ 1 < (toC.2 - fromC.2).natAbs then
            some piece.square.1
          else none) }

/-- `Board::flip_on_move`. -/
def flip_on_move (b : Board) : Board :=
  { b with
    turn_number := b.turn_number + 1,
    on_move := match b.on_move with
      | .WHITE => .BLACK
      | .BLACK => .WHITE }

/-! ### Association-list map lemmas -/

theorem mapErase_cons_mem (e : Coordinate × Piece) (t : List (Coordinate × Piece))
    (c : Coordinate) (he : e.1 = c) : mapErase (e :: t) c = mapErase t c := by
  unfold mapErase
  rw [List.filter_cons, if_neg]
  simp [he]

theorem mapErase_cons_ne (e : Coordinate × Piece) (t : List (Coordinate × Piece))
    (c : Coordinate) (he : ¬ e.1 = c) : mapErase (e :: t) c = e :: mapErase t c := by
  unfold mapErase
  rw [List.filter_cons, if_pos]
  simp [he]

theorem mapGet_cons_eq (e : Coordinate × Piece) (t : List (Coordinate × Piece))
    (c : Coordinate) (he : e.1 = c) : mapGet (e :: t) c = some e.2 := by
  unfold mapGet
  rw [List.find?_cons]
  have hd : decide (e.1 = c) = true := by simpa using he
  rw [hd]
  rfl

theorem mapGet_cons_ne (e : Coordinate × Piece) (t : List (Coordinate × Piece))
    (c : Coordinate) (he : ¬ e.1 = c) : mapGet (e :: t) c = mapGet t c := by
  unfold mapGet
  rw [List.find?_cons]
  have hd : decide (e.1 = c) = false := by simpa using he
  rw [hd]

theorem mapGet_mapErase_self (l : List (Coordinate × Piece)) (c : Coordinate) :
    mapGet (mapErase l c) c = none := by
  induction l with
  | nil => rfl
  | cons e t ih =>
    by_cases he : e.1 = c
    · rw [mapErase_cons_mem e t c he]; exact ih
    · rw [mapErase_cons_ne e t c he, mapGet_cons_ne e _ c he]; exact ih

theorem mapGet_mapErase_ne (l : List (Coordinate × Piece)) (c c' : Coordinate)
    (h : c' ≠ c) : mapGet (mapErase l c) c' = mapGet l c' := by
  induction l with
  | nil => rfl
  | cons e t ih =>
    by_cases he : e.1 = c
    · have he' : ¬ e.1 = c' := by rw [he]; exact fun hh => h hh.symm
      rw [mapErase_cons_mem e t c he, mapGet_cons_ne e t c' he', ih]
    · rw [mapErase_cons_ne e t c he]
      by_cases he' : e.1 = c'
      · rw [mapGet_cons_eq e _ c' he', mapGet_cons_eq e t c' he']
      · rw [mapGet_cons_ne e _ c' he', mapGet_cons_ne e t c' he', ih]

theorem mapErase_idem (l : List (Coordinate × Piece)) (c : Coordinate) :
    mapErase (mapErase l c) c = mapErase l c := by
  induction l with
  | nil => rfl
  | cons e t ih =>
    by_cases he : e.1 = c
    · rw [mapErase_cons_mem e t c he]; exact ih
    · rw [mapErase_cons_ne e t c he, mapErase_cons_ne e _ c he, ih]

theorem mapErase_mapInsert_self (l : List (Coordinate × Piece)) (c : Coordinate)
    (p : Piece) : mapErase (mapInsert l c p) c = mapErase l c := by
  unfold mapInsert
  rw [mapErase_cons_mem (c, p) _ c rfl]
  exact mapErase_idem l c

theorem mapGet_mapInsert_self (l : List (Coordinate × Piece)) (c : Coordinate)
    (p : Piece) : mapGet (mapInsert l c p) c = some p := by
  unfold mapInsert
  exact mapGet_cons_eq (c, p) _ c rfl

theorem mapGet_mapInsert_ne (l : List (Coordinate × Piece)) (c c' : Coordinate)
    (p : Piece) (h : c' ≠ c) : mapGet (mapInsert l c p) c' = mapGet l c' := by
  unfold mapInsert
  rw [mapGet_cons_ne (c, p) _ c' (fun hh => h hh.symm)]
  exact mapGet_mapErase_ne l c c' h

theorem mapGet_mem (l : List (Coordinate × Piece)) (c : Coordinate) (p : Piece)
    (h : mapGet l c = some p) : (c, p) ∈ l := by
  unfold mapGet at h
  cases hf : l.find? (fun e => decide (e.1 = c)) with
  | none => rw [hf] at h; cases h
  | some e =>
    rw [hf] at h
    have hm := List.mem_of_find?_eq_some hf
    have hk : e.1 = c := by simpa using List.find?_some hf
    have hp : e.2 = p := Option.some.inj h
    obtain ⟨e1, e2⟩ := e
    subst hk
    subst hp
    exact hm

theorem mapGet_of_mem_nodup (l : List (Coordinate × Piece)) (c : Coordinate)
    (p : Piece) (hnd : (l.map Prod.fst).Nodup) (h : (c, p) ∈ l) :
    mapGet l c = some p := by
  induction l with
  | nil => cases h
  | cons e t ih =>
    rcases List.mem_cons.mp h with he | ht
    · rw [← he]
      simp [mapGet, List.find?]
    · have hnd' : (t.map Prod.fst).Nodup := (List.nodup_cons.mp hnd).2
      have hne : ¬ e.1 = c := by
        intro hec
        have : e.1 ∈ t.map Prod.fst := by
          refine List.mem_map.mpr ⟨(c, p), ht, ?_⟩
          rw [hec]
        exact (List.nodup_cons.mp hnd).1 this
      simpa [mapGet, List.find?, hne] using ih hnd' ht

/-! ### Claim theorems: construction, purity, mutation frame -/

/-- Claim C7: `Board::new` always succeeds and yields the 32-piece standard
setup of the source (back rank rook, knight, bishop, king, queen, bishop,
knight, rook by file; pawns on ranks 1 and 6), `on_move = WHITE`,
`turn_number = 0`, `en_pessant_file = None`, every piece unmoved with its
`square` equal to its key. -/
theorem new_standard_setup :
    Board.new.pieces.length = 32 ∧
    (Board.new.pieces.map Prod.fst).Nodup ∧
    Board.new.on_move = .WHITE ∧
    Board.new.turn_number = 0 ∧
    Board.new.en_pessant_file = none ∧
    (∀ e ∈ Board.new.pieces, e.2.square = e.1 ∧ e.2.moved = false) ∧
    (∀ i : Fin 8,
      mapGet Board.new.pieces ((i.val : Int), 0) =
        some { kind := BACK_RANK.getD i.val .PAWN, color := .WHITE,
               square := ((i.val : Int), 0), moved := false } ∧
      mapGet Board.new.pieces ((i.val : Int), 7) =
        some { kind := BACK_RANK.getD i.val .PAWN, color := .BLACK,
               square := ((i.val : Int), 7), moved := false } ∧
      mapGet Board.new.pieces ((i.val : Int), 1) =
        some { kind := .PAWN, color := .WHITE,
               square := ((i.val : Int), 1), moved := false } ∧
      mapGet Board.new.pieces ((i.val : Int), 6) =
        some { kind := .PAWN, color := .BLACK,
               square := ((i.val : Int), 6), moved := false }) := by
  decide

/-- Claim C8: `get_valid_moves` is a pure query — repeating the call on the
board state left by a first call gives the identical result, and the call
leaves every board field unchanged. -/
theorem get_valid_moves_pure (b : Board) (piece : Piece) :
    (get_valid_moves_call b piece).1 =
      (get_valid_moves_call (get_valid_moves_call b piece).2 piece).1 ∧
    (get_valid_moves_call b piece).2.pieces = b.pieces ∧
    (get_valid_moves_call b piece).2.on_move = b.on_move ∧
    (get_valid_moves_call b piece).2.turn_number = b.turn_number ∧
    (get_valid_moves_call b piece).2.en_pessant_file = b.en_pessant_file :=
  ⟨rfl, rfl, rfl, rfl, rfl⟩

/-- Claim C5: `is_checked(piece)` is true exactly when some opposing-color
piece on the board sees `piece.square` in its `looking_at` result. -/
theorem is_checked_iff_attacker (b : Board) (piece : Piece)
    (hnd : (b.pieces.map Prod.fst).Nodup) :
    is_checked b piece = true ↔
      ∃ c q, mapGet b.pieces c = some q ∧ q.color ≠ piece.color ∧
        piece.square ∈ looking_at b q := by
  unfold is_checked
  rw [List.any_eq_true]
  constructor
  · rintro ⟨e, hmem, hpred⟩
    simp only [Bool.and_eq_true, decide_eq_true_eq] at hpred
    obtain ⟨e1, e2⟩ := e
    exact ⟨e1, e2, mapGet_of_mem_nodup _ _ _ hnd hmem, hpred.1, hpred.2⟩
  · rintro ⟨c, q, hget, hcol, hlook⟩
    refine ⟨(c, q), mapGet_mem _ _ _ hget, ?_⟩
    simp only [Bool.and_eq_true, decide_eq_true_eq]
    exact ⟨hcol, hlook⟩

/-- A rook checking a king along a file, used to instantiate C5. -/
def rookCheckBoard : Board :=
  { pieces := [((0, 0), { kind := .ROOK, color := .WHITE, square := (0, 0), moved := false }),
               ((0, 5), { kind := .KING, color := .BLACK, square := (0, 5), moved := false })],
    on_move := .BLACK, turn_number := 0, en_pessant_file := none }

def rookCheckKing : Piece := { kind := .KING, color := .BLACK, square := (0, 5), moved := false }

theorem is_checked_iff_attacker_witness :
    ∃ c q, mapGet rookCheckBoard.pieces c = some q ∧
      q.color ≠ rookCheckKing.color ∧
      rookCheckKing.square ∈ looking_at rookCheckBoard q :=
  (is_checked_iff_attacker rookCheckBoard rookCheckKing (by decide)).mp (by decide)

/-- Claim C3: after a completed `move_piece(from, to)`, `en_pessant_file` is
`Some(to.file)` when the piece that stood at `from` is a pawn that moved
more than one rank, and `None` otherwise — independently of the flag's
previous value. -/
theorem move_piece_en_pessant (n : Nat) (b : Board) (fromC toC : Coordinate)
    (b' : Board) (p : Piece)
    (h : move_piece n b fromC toC = some b')
    (hp : mapGet b.pieces fromC = some p) :
    b'.en_pessant_file =
      (if p.kind = .PAWN ∧ 1 < (toC.2 - fromC.2).natAbs then some toC.1 else none) := by
  cases n with
  | zero => cases h
  | succ n =>
    simp only [move_piece, hp] at h
    split at h
    · cases h
    · rename_i b2 heq
      cases h
      simp

/-- A lone white pawn double-stepping from rank 1 to rank 3. -/
def lonePawnBoard : Board :=
  { pieces := [((0, 1), { kind := .PAWN, color := .WHITE, square := (0, 1), moved := false })],
    on_move := .WHITE, turn_number := 0, en_pessant_file := none }

theorem move_piece_en_pessant_witness :
    ∃ b', move_piece 1 lonePawnBoard (0, 1) (0, 3) = some b' ∧
      b'.en_pessant_file = some 0 := by
  have h : (move_piece 1 lonePawnBoard (0, 1) (0, 3)).isSome = true := by decide
  obtain ⟨b', hb⟩ := Option.isSome_iff_exists.mp h
  refine ⟨b', hb, ?_⟩
  have hc := move_piece_en_pessant 1 lonePawnBoard (0, 1) (0, 3) b'
    { kind := .PAWN, color := .WHITE, square := (0, 1), moved := false } hb (by decide)
  rw [hc]
  decide

theorem move_piece_frame : ∀ (n : Nat) (b : Board) (fromC toC : Coordinate) (b' : Board),
    move_piece n b fromC toC = some b' →
    b'.on_move = b.on_move ∧ b'.turn_number = b.turn_number := by
  intro n
  induction n with
  | zero => intro b f t b' h; cases h
  | succ n ih =>
    intro b f t b' h
    simp only [move_piece] at h
    cases hg : mapGet b.pieces f with
    | none => rw [hg] at h; cases h
    | some p0 =>
      rw [hg] at h
      simp only at h
      split at h
      · cases h
      · rename_i b2 heq
        cases h
        have hb2 : b2.on_move = b.on_move ∧ b2.turn_number = b.turn_number := by
          split at heq
          · split at heq
            · cases heq; exact ⟨rfl, rfl⟩
            · have hrec := ih _ _ _ _ heq
              exact ⟨hrec.1, hrec.2⟩
          · cases heq; exact ⟨rfl, rfl⟩
        constructor
        · show (if _ then _ else b2).on_move = b.on_move
          split
          · exact hb2.1
          · exact hb2.1
        · show (if _ then _ else b2).turn_number = b.turn_number
          split
          · exact hb2.2
          · exact hb2.2

/-- Claim C9: `move_piece` never touches `on_move` or `turn_number`; only
`flip_on_move` advances them, and `flip_on_move` touches nothing else, so
committing a move and advancing the turn are independent mutations. -/
theorem move_and_flip_independent (n : Nat) (b : Board) (fromC toC : Coordinate)
    (b' : Board) (h : move_piece n b fromC toC = some b') :
    b'.on_move = b.on_move ∧ b'.turn_number = b.turn_number ∧
    (flip_on_move b).pieces = b.pieces ∧
    (flip_on_move b).en_pessant_file = b.en_pessant_file ∧
    (flip_on_move b).turn_number = b.turn_number + 1 := by
  obtain ⟨h1, h2⟩ := move_piece_frame n b fromC toC b' h
  exact ⟨h1, h2, rfl, rfl, rfl⟩

theorem move_and_flip_independent_witness :
    ∃ b', move_piece 1 lonePawnBoard (0, 1) (0, 2) = some b' ∧
      b'.on_move = lonePawnBoard.on_move ∧
      b'.turn_number = lonePawnBoard.turn_number := by
  have h : (move_piece 1 lonePawnBoard (0, 1) (0, 2)).isSome = true := by decide
  obtain ⟨b', hb⟩ := Option.isSome_iff_exists.mp h
  have hc := move_and_flip_independent 1 lonePawnBoard (0, 1) (0, 2) b' hb
  exact ⟨b', hb, hc.1, hc.2.1⟩

/-- Claim C10: the out-of-contract call `move_piece(c, c)` on an occupied
square deletes the occupant (the insert targets the key the removal then
clears), leaves every other square as it was, and clears
`en_pessant_file`. -/
theorem move_piece_same_square_deletes (n : Nat) (b : Board) (c : Coordinate)
    (p : Piece) (h : mapGet b.pieces c = some p) :
    ∃ b', move_piece (n + 1) b c c = some b' ∧
      mapGet b'.pieces c = none ∧
      (∀ c', c' ≠ c → mapGet b'.pieces c' = mapGet b.pieces c') ∧
      b'.en_pessant_file = none := by
  refine ⟨{ b with pieces := mapErase b.pieces c, en_pessant_file := none },
    ?_, mapGet_mapErase_self _ _,
    fun c' hc => mapGet_mapErase_ne _ _ _ hc, rfl⟩
  simp [move_piece, h, mapErase_mapInsert_self]

theorem move_piece_same_square_deletes_witness :
    ∃ b', move_piece 1 lonePawnBoard (0, 1) (0, 1) = some b' ∧
      mapGet b'.pieces (0, 1) = none ∧
      mapGet b'.pieces (0, 2) = mapGet lonePawnBoard.pieces (0, 2) ∧
      b'.en_pessant_file = none := by
  obtain ⟨b', h1, h2, h3, h4⟩ := move_piece_same_square_deletes 0 lonePawnBoard (0, 1)
    { kind := .PAWN, color := .WHITE, square := (0, 1), moved := false } (by decide)
  exact ⟨b', h1, h2, h3 (0, 2) (by decide), h4⟩

/-! ### Candidate squares never hold a same-color piece -/

theorem walk_no_friendly (b : Board) (color : PieceColor) :
    ∀ (fuel : Nat) (pos d m : Coordinate), m ∈ walk b color fuel pos d →
      mapGet b.pieces m = none ∨
        ∃ occ, mapGet b.pieces m = some occ ∧ occ.color ≠ color := by
  intro fuel
  induction fuel with
  | zero => intro pos d m hm; cases hm
  | succ fuel ih =>
    intro pos d m hm
    simp only [walk] at hm
    split at hm
    · split at hm
      · rename_i occ heq
        split at hm
        · rename_i hocc
          rw [List.mem_singleton] at hm
          subst hm
          exact Or.inr ⟨occ, heq, hocc⟩
        · cases hm
      · rename_i heq
        rcases List.mem_cons.mp hm with h1 | h2
        · subst h1; exact Or.inl heq
        · exact ih _ _ _ h2
    · cases hm

theorem looking_at_no_friendly (b : Board) (piece : Piece) :
    ∀ m ∈ looking_at b piece, ∀ q, mapGet b.pieces m = some q →
      q.color ≠ piece.color := by
  intro m hm q hq
  unfold looking_at at hm
  cases hk : piece.kind <;> rw [hk] at hm <;> simp only [] at hm
  case PAWN =>
    rw [List.mem_filterMap] at hm
    obtain ⟨d, _, hf⟩ := hm
    split at hf
    · split at hf
      · rename_i occ heq
        split at hf
        · rename_i hocc
          cases hf
          rw [heq] at hq
          cases hq
          exact fun hc => hocc hc.symm
        · cases hf
      · cases hf
    · cases hf
  case ROOK =>
    rw [List.mem_flatMap] at hm
    obtain ⟨d, _, hw⟩ := hm
    rcases walk_no_friendly b piece.color 16 piece.square d m hw with hn | ⟨occ, heq, hocc⟩
    · rw [hn] at hq; cases hq
    · rw [heq] at hq; cases hq; exact hocc
  case KNIGHT =>
    rw [List.mem_filterMap] at hm
    obtain ⟨d, _, hf⟩ := hm
    split at hf
    · split at hf
      · rename_i occ heq
        split at hf
        · cases hf
        · rename_i hocc
          cases hf
          rw [heq] at hq
          cases hq
          exact fun hc => hocc hc.symm
      · rename_i heq
        cases hf
        rw [heq] at hq
        cases hq
    · cases hf
  case BISHOP =>
    rw [List.mem_flatMap] at hm
    obtain ⟨d, _, hw⟩ := hm
    rcases walk_no_friendly b piece.color 16 piece.square d m hw with hn | ⟨occ, heq, hocc⟩
    · rw [hn] at hq; cases hq
    · rw [heq] at hq; cases hq; exact hocc
  case KING =>
    rw [List.mem_filterMap] at hm
    obtain ⟨d, _, hf⟩ := hm
    split at hf
    · split at hf
      · rename_i occ heq
        split at hf
        · cases hf
        · rename_i hocc
          cases hf
          rw [heq] at hq
          cases hq
          exact fun hc => hocc hc.symm
      · rename_i heq
        cases hf
        rw [heq] at hq
        cases hq
    · cases hf
  case QUEEN =>
    rw [List.mem_flatMap] at hm
    obtain ⟨d, _, hw⟩ := hm
    rcases walk_no_friendly b piece.color 16 piece.square d m hw with hn | ⟨occ, heq, hocc⟩
    · rw [hn] at hq; cases hq
    · rw [heq] at hq; cases hq; exact hocc

theorem candidate_no_friendly (b : Board) (p : Piece) :
    ∀ m ∈ candidateMoves b p, ∀ q, mapGet b.pieces m = some q →
      q.color ≠ p.color := by
  intro m hm q hq
  have hbase : m ∈ looking_at b p → q.color ≠ p.color :=
    fun hb => looking_at_no_friendly b p m hb q hq
  simp only [candidateMoves] at hm
  split at hm
  · split at hm
    · rename_i hg1
      split at hm
      · rename_i hg2
        rcases List.mem_append.mp hm with hb | hext
        · exact hbase hb
        · rcases List.mem_cons.mp hext with h1 | h2
          · subst h1; rw [hg1.1] at hq; cases hq
          · rw [List.mem_singleton] at h2
            subst h2; rw [hg2.2.1] at hq; cases hq
      · rename_i hg2
        rcases List.mem_append.mp hm with hb | hext
        · exact hbase hb
        · rw [List.mem_singleton] at hext
          subst hext; rw [hg1.1] at hq; cases hq
    · exact hbase hm
  · exact hbase hm

/-! ### Claim C1: self-check safety of the filter stage, and the castling hole -/

theorem filterSelfCheck_safe (b : Board) (piece : Piece) :
    ∀ (l out : List Coordinate), filterSelfCheck b piece l = some out →
      ∀ m ∈ out, ∃ king,
        findKing (simBoard b piece m).pieces piece.color = some king ∧
        is_checked (simBoard b piece m) king = false := by
  intro l
  induction l with
  | nil => intro out h m hm; cases h; cases hm
  | cons x xs ih =>
    intro out h m hm
    simp only [filterSelfCheck] at h
    cases hk : findKing (simBoard b piece x).pieces piece.color with
    | none => rw [hk] at h; cases h
    | some king =>
      rw [hk] at h
      cases hrest : filterSelfCheck b piece xs with
      | none => rw [hrest] at h; cases h
      | some rest =>
        rw [hrest] at h
        cases h
        by_cases hchk : is_checked (simBoard b piece x) king = true
        · rw [if_pos] at hm
          · exact ih rest hrest m hm
          · exact hchk
        · rw [if_neg] at hm
          · rcases List.mem_cons.mp hm with h1 | h2
            · subst h1
              exact ⟨king, hk, Bool.eq_false_iff.mpr hchk⟩
            · exact ih rest hrest m h2
          · exact hchk

/-- Claim C1, amended: every coordinate kept by the self-check filtering
stage of `get_valid_moves` (the candidates from `looking_at` and the pawn
pushes) is safe — simulating the move yields a position whose located king
of the mover's color is not checked.  (The castling and en-passant branches
append their destinations after this filter and are not covered; see the
counterexample.) -/
theorem get_valid_moves_filter_stage_safe (b : Board) (piece : Piece)
    (fs : List Coordinate)
    (h : filterSelfCheck b piece (candidateMoves b piece) = some fs) :
    ∀ m ∈ fs, ∃ king,
      findKing (simBoard b piece m).pieces piece.color = some king ∧
      is_checked (simBoard b piece m) king = false :=
  filterSelfCheck_safe b piece _ fs h

theorem get_valid_moves_filter_stage_safe_witness :
    ∃ king,
      findKing (simBoard rookCheckBoard rookCheckKing (1, 5)).pieces
        rookCheckKing.color = some king ∧
      is_checked (simBoard rookCheckBoard rookCheckKing (1, 5)) king = false :=
  get_valid_moves_filter_stage_safe rookCheckBoard rookCheckKing
    [(1, 4), (1, 5), (1, 6)] (by decide) (1, 5) (by decide)

def castleTrapKing : Piece :=
  { kind := .KING, color := .WHITE, square := (4, 0), moved := false }

/-- White king and rook castle-ready; the black pawn at `(1, 1)` attacks the
castling destination `(2, 0)` only once a piece stands there, which the
synthetic-king safety probe (run on the unchanged board, where `(2, 0)` is
empty) cannot see. -/
def castleTrapBoard : Board :=
  { pieces := [((4, 0), castleTrapKing),
               ((0, 0), { kind := .ROOK, color := .WHITE, square := (0, 0), moved := false }),
               ((1, 1), { kind := .PAWN, color := .BLACK, square := (1, 1), moved := false }),
               ((7, 7), { kind := .KING, color := .BLACK, square := (7, 7), moved := false })],
    on_move := .WHITE, turn_number := 0, en_pessant_file := none }

/-- Claim C1 counterexample: on `castleTrapBoard` — one king per color,
WHITE to move — `get_valid_moves` for the white king returns the castling
destination `(2, 0)`, yet simulating that move (remove from origin, insert
the updated copy) leaves the mover's own king checked. -/
theorem get_valid_moves_unsafe_castle_cex :
    castleTrapBoard.on_move = castleTrapKing.color ∧
    mapGet castleTrapBoard.pieces (4, 0) = some castleTrapKing ∧
    (castleTrapBoard.pieces.filter
      (fun e => decide (e.2.kind = .KING ∧ e.2.color = .WHITE))).length = 1 ∧
    (castleTrapBoard.pieces.filter
      (fun e => decide (e.2.kind = .KING ∧ e.2.color = .BLACK))).length = 1 ∧
    ((2 : Int), (0 : Int)) ∈ (get_valid_moves castleTrapBoard castleTrapKing).getD [] ∧
    findKing (simBoard castleTrapBoard castleTrapKing (2, 0)).pieces
      castleTrapKing.color =
      some { kind := .KING, color := .WHITE, square := (2, 0), moved := false } ∧
    is_checked (simBoard castleTrapBoard castleTrapKing (2, 0))
      { kind := .KING, color := .WHITE, square := (2, 0), moved := false } = true := by
  decide

/-! ### Claim C6: the missing-king fatal branch -/

theorem filterSelfCheck_total (b : Board) (p : Piece) :
    ∀ l : List Coordinate,
      (∀ m ∈ l, findKing (simBoard b p m).pieces p.color ≠ none) →
      ∃ out, filterSelfCheck b p l = some out := by
  intro l
  induction l with
  | nil => intro _; exact ⟨[], rfl⟩
  | cons x xs ih =>
    intro hall
    obtain ⟨out, hout⟩ := ih (fun m hm => hall m (List.mem_cons_of_mem x hm))
    cases hk : findKing (simBoard b p x).pieces p.color with
    | none => exact absurd hk (hall x (List.mem_cons_self x xs))
    | some king =>
      refine ⟨if is_checked (simBoard b p x) king then out else x :: out, ?_⟩
      simp only [filterSelfCheck, hk, hout]

theorem mem_mapErase_of_mem (l : List (Coordinate × Piece)) (c : Coordinate)
    (e : Coordinate × Piece) (he : e ∈ l) (hne : e.1 ≠ c) : e ∈ mapErase l c := by
  unfold mapErase
  rw [List.mem_filter]
  exact ⟨he, by simpa using hne⟩

theorem mem_of_mem_mapErase (l : List (Coordinate × Piece)) (c : Coordinate)
    (e : Coordinate × Piece) (he : e ∈ mapErase l c) : e ∈ l :=
  List.mem_of_mem_filter he

/-- Claim C6: if the board holds no king of the mover's color, then
`get_valid_moves` on one of that color's pieces panics (`none`) as soon as
there is at least one candidate move from `looking_at` or the pawn pushes;
conversely, with such a king on the board the fatal branch is unreachable
and `get_valid_moves` always returns a result. -/
theorem get_valid_moves_king_requirement (b : Board) (p : Piece)
    (hp : mapGet b.pieces p.square = some p) :
    ((∀ e ∈ b.pieces, ¬ (e.2.kind = .KING ∧ e.2.color = p.color)) →
      candidateMoves b p ≠ [] → get_valid_moves b p = none) ∧
    ((∃ kc kp, mapGet b.pieces kc = some kp ∧ kp.kind = .KING ∧ kp.color = p.color) →
      ∃ ms, get_valid_moves b p = some ms) := by
  constructor
  · intro hnoking hne
    cases hcand : candidateMoves b p with
    | nil => exact absurd hcand hne
    | cons m rest =>
      have hsim : findKing (simBoard b p m).pieces p.color = none := by
        unfold findKing
        rw [Option.map_eq_none', List.find?_eq_none]
        intro e he
        simp only [Bool.and_eq_true, decide_eq_true_eq, not_and]
        intro hek hec
        rcases List.mem_cons.mp he with h1 | h2
        · have hpk : p.kind ≠ PieceKind.KING := by
            intro hk
            exact hnoking (p.square, p) (mapGet_mem _ _ _ hp) ⟨hk, rfl⟩
          rw [h1] at hek
          exact hpk hek
        · have hmem : e ∈ b.pieces :=
            mem_of_mem_mapErase _ _ _ (mem_of_mem_mapErase _ _ _ h2)
          exact hnoking e hmem ⟨hek, hec⟩
      unfold get_valid_moves
      rw [hcand]
      simp only [filterSelfCheck, hsim]
      rfl
  · rintro ⟨kc, kp, hkc, hkk, hkcol⟩
    have hall : ∀ m ∈ candidateMoves b p,
        findKing (simBoard b p m).pieces p.color ≠ none := by
      intro m hm
      by_cases hpk : p.kind = PieceKind.KING
      · intro hnone
        unfold findKing at hnone
        rw [Option.map_eq_none', List.find?_eq_none] at hnone
        have := hnone ((m, { p with square := m }))
          (List.mem_cons_self _ _)
        simp only [Bool.and_eq_true, decide_eq_true_eq, not_and] at this
        exact this hpk trivial
      · have hkcne : kc ≠ p.square := by
          intro hh
          rw [hh, hp] at hkc
          cases hkc
          exact hpk hkk
        have hkm : kc ≠ m := by
          intro hh
          rw [hh] at hkc
          exact candidate_no_friendly b p m hm kp hkc hkcol
        intro hnone
        unfold findKing at hnone
        rw [Option.map_eq_none', List.find?_eq_none] at hnone
        have hmem : (kc, kp) ∈ (simBoard b p m).pieces := by
          show (kc, kp) ∈ mapInsert (mapErase b.pieces p.square) m { p with square := m }
          unfold mapInsert
          exact List.mem_cons_of_mem _
            (mem_mapErase_of_mem _ _ _
              (mem_mapErase_of_mem _ _ _ (mapGet_mem _ _ _ hkc) hkcne) hkm)
        have hcontra := hnone (kc, kp) hmem
        simp only [Bool.and_eq_true, decide_eq_true_eq, not_and] at hcontra
        exact hcontra hkk hkcol
    obtain ⟨out, hout⟩ := filterSelfCheck_total b p (candidateMoves b p) hall
    exact ⟨_, by unfold get_valid_moves; rw [hout]; rfl⟩

/-! ### Claim C4: ray characterization of the slider arm of looking_at -/

/-- The square `n` steps along delta `d` from `c`. -/
def stepN (n : Nat) (d c : Coordinate) : Coordinate :=
  (c.1 + n * d.1, c.2 + n * d.2)

theorem stepN_one (d c : Coordinate) : stepN 1 d c = stepD c d := by
  unfold stepN stepD
  rw [Prod.mk.injEq]
  constructor <;> push_cast <;> ring

theorem stepN_shift (m : Nat) (d pos : Coordinate) :
    stepN m d (stepD pos d) = stepN (m + 1) d pos := by
  unfold stepN stepD
  rw [Prod.mk.injEq]
  constructor <;> push_cast <;> ring

theorem walk_succ (b : Board) (color : PieceColor) (fuel : Nat)
    (pos d : Coordinate) :
    walk b color (fuel + 1) pos d =
      if onBoard (stepD pos d) then
        match mapGet b.pieces (stepD pos d) with
        | some occupying =>
          if occupying.color ≠ color then [stepD pos d] else []
        | none => stepD pos d :: walk b color fuel (stepD pos d) d
      else [] := rfl

theorem mem_walk_iff (b : Board) (color : PieceColor) (d : Coordinate) :
    ∀ (fuel : Nat) (pos c : Coordinate),
      c ∈ walk b color fuel pos d ↔
        ∃ n : Nat, 1 ≤ n ∧ n ≤ fuel ∧ c = stepN n d pos ∧ onBoard c ∧
          (∀ k : Nat, 1 ≤ k → k < n →
            mapGet b.pieces (stepN k d pos) = none ∧ onBoard (stepN k d pos)) ∧
          (mapGet b.pieces c = none ∨
            ∃ occ, mapGet b.pieces c = some occ ∧ occ.color ≠ color) := by
  intro fuel
  induction fuel with
  | zero =>
    intro pos c
    constructor
    · intro hm; cases hm
    · rintro ⟨n, h1, h0, -⟩
      omega
  | succ fuel ih =>
    intro pos c
    by_cases hob : onBoard (stepD pos d)
    · cases hg : mapGet b.pieces (stepD pos d) with
      | some occ =>
        by_cases hocc : occ.color ≠ color
        · constructor
          · intro hm
            rw [walk_succ, if_pos hob, hg] at hm
            replace hm : c ∈ (if occ.color ≠ color then [stepD pos d] else []) := hm
            rw [if_pos hocc] at hm
            rw [List.mem_singleton] at hm
            subst hm
            refine ⟨1, le_refl 1, by omega, (stepN_one d pos).symm, hob, ?_, ?_⟩
            · intro k hk1 hk2; omega
            · exact Or.inr ⟨occ, hg, hocc⟩
          · rintro ⟨n, h1, hle, heq, hobc, hint, hoccc⟩
            rw [walk_succ, if_pos hob, hg]
            show c ∈ (if occ.color ≠ color then [stepD pos d] else [])
            rw [if_pos hocc]
            rcases Nat.lt_or_ge 1 n with hn2 | hn1
            · have := (hint 1 (le_refl 1) hn2).1
              rw [stepN_one] at this
              rw [this] at hg
              cases hg
            · have hn : n = 1 := by omega
              subst hn
              rw [List.mem_singleton, heq, stepN_one]
        · constructor
          · intro hm
            rw [walk_succ, if_pos hob, hg] at hm
            replace hm : c ∈ (if occ.color ≠ color then [stepD pos d] else []) := hm
            rw [if_neg hocc] at hm
            cases hm
          · rintro ⟨n, h1, hle, heq, hobc, hint, hoccc⟩
            exfalso
            rcases Nat.lt_or_ge 1 n with hn2 | hn1
            · have := (hint 1 (le_refl 1) hn2).1
              rw [stepN_one] at this
              rw [this] at hg
              cases hg
            · have hn : n = 1 := by omega
              subst hn
              rw [heq, stepN_one] at hoccc
              rcases hoccc with hnone | ⟨occ', heq', hne'⟩
              · rw [hnone] at hg; cases hg
              · rw [heq'] at hg
                cases hg
                exact hocc hne'
      | none =>
        constructor
        · intro hm
          rw [walk_succ, if_pos hob, hg] at hm
          rcases List.mem_cons.mp hm with hhd | htl
          · subst hhd
            refine ⟨1, le_refl 1, by omega, (stepN_one d pos).symm, hob, ?_, ?_⟩
            · intro k hk1 hk2; omega
            · exact Or.inl hg
          · obtain ⟨m, hm1, hmle, hmeq, hmob, hmint, hmocc⟩ := (ih (stepD pos d) c).mp htl
            refine ⟨m + 1, by omega, by omega, ?_, hmob, ?_, hmocc⟩
            · rw [hmeq, stepN_shift]
            · intro k hk1 hk2
              cases k with
              | zero => omega
              | succ j =>
                cases Nat.eq_zero_or_pos j with
                | inl hj0 =>
                  subst hj0
                  rw [stepN_one]
                  exact ⟨hg, hob⟩
                | inr hj1 =>
                  have := hmint j hj1 (by omega)
                  rw [stepN_shift] at this
                  exact this
        · rintro ⟨n, h1, hle, heq, hobc, hint, hoccc⟩
          rw [walk_succ, if_pos hob, hg]
          obtain ⟨m, rfl⟩ : ∃ m, n = m + 1 := ⟨n - 1, by omega⟩
          cases Nat.eq_zero_or_pos m with
          | inl hm0 =>
            subst hm0
            rw [heq, stepN_one]
            exact List.mem_cons_self _ _
          | inr hm1 =>
            refine List.mem_cons_of_mem _ ((ih (stepD pos d) c).mpr ?_)
            refine ⟨m, hm1, by omega, ?_, hobc, ?_, hoccc⟩
            · rw [stepN_shift, ← heq]
            · intro k hk1 hk2
              have := hint (k + 1) (by omega) (by omega)
              rw [← stepN_shift] at this
              exact this
    · constructor
      · intro hm
        rw [walk_succ, if_neg hob] at hm
        cases hm
      · rintro ⟨n, h1, hle, heq, hobc, hint, hoccc⟩
        exfalso
        rcases Nat.lt_or_ge 1 n with hn2 | hn1
        · have := (hint 1 (le_refl 1) hn2).2
          rw [stepN_one] at this
          exact hob this
        · have hn : n = 1 := by omega
          subst hn
          rw [heq, stepN_one] at hobc
          exact hob hobc

theorem sliderPattern_unit (k : PieceKind)
    (hk : k = .ROOK ∨ k = .BISHOP ∨ k = .QUEEN) :
    ∀ d ∈ sliderPattern k, d.1 = 1 ∨ d.1 = -1 ∨ d.2 = 1 ∨ d.2 = -1 := by
  rcases hk with h | h | h <;> subst h <;> decide

theorem stepN_bound (sq c d : Coordinate) (n : Nat)
    (hd : d.1 = 1 ∨ d.1 = -1 ∨ d.2 = 1 ∨ d.2 = -1)
    (hsq : onBoard sq) (hc : onBoard c) (heq : c = stepN n d sq) : n ≤ 16 := by
  subst heq
  unfold onBoard at hsq hc
  simp only [stepN] at hc
  obtain ⟨hs1, hs2, hs3, hs4⟩ := hsq
  obtain ⟨hc1, hc2, hc3, hc4⟩ := hc
  rcases hd with h | h | h | h
  · rw [h, mul_one] at hc1 hc2; omega
  · rw [h, mul_neg_one] at hc1 hc2; omega
  · rw [h, mul_one] at hc3 hc4; omega
  · rw [h, mul_neg_one] at hc3 hc4; omega

/-- Claim C4: for a rook, bishop or queen on the board, `looking_at` is
exactly the union over the piece's movement pattern of the rays walked one
square at a time: a square is in the result iff it is `n ≥ 1` steps along
one of the pattern's deltas, on the board, every strictly earlier square of
that ray is empty and on the board, and the square itself is either empty
or holds an opposing-color piece (the first occupied square ends the walk
and is kept only in that case; nothing past a blocker or the edge
appears). -/
theorem looking_at_slider_ray (b : Board) (piece : Piece)
    (hk : piece.kind = .ROOK ∨ piece.kind = .BISHOP ∨ piece.kind = .QUEEN)
    (hob : onBoard piece.square) (c : Coordinate) :
    c ∈ looking_at b piece ↔
      ∃ d ∈ sliderPattern piece.kind, ∃ n : Nat, 1 ≤ n ∧
        c = stepN n d piece.square ∧ onBoard c ∧
        (∀ k : Nat, 1 ≤ k → k < n →
          mapGet b.pieces (stepN k d piece.square) = none ∧
          onBoard (stepN k d piece.square)) ∧
        (mapGet b.pieces c = none ∨
          ∃ occ, mapGet b.pieces c = some occ ∧ occ.color ≠ piece.color) := by
  have hflat : looking_at b piece =
      (sliderPattern piece.kind).flatMap (fun d => walk b piece.color 16 piece.square d) := by
    rcases hk with h | h | h <;> rw [looking_at, h]
  rw [hflat, List.mem_flatMap]
  constructor
  · rintro ⟨d, hd, hw⟩
    obtain ⟨n, h1, hle, heq, hobc, hint, hocc⟩ :=
      (mem_walk_iff b piece.color d 16 piece.square c).mp hw
    exact ⟨d, hd, n, h1, heq, hobc, hint, hocc⟩
  · rintro ⟨d, hd, n, h1, heq, hobc, hint, hocc⟩
    refine ⟨d, hd, (mem_walk_iff b piece.color d 16 piece.square c).mpr
      ⟨n, h1, ?_, heq, hobc, hint, hocc⟩⟩
    exact stepN_bound piece.square c d n (sliderPattern_unit piece.kind hk d hd) hob hobc heq

def rayRook : Piece := { kind := .ROOK, color := .WHITE, square := (3, 3), moved := false }

def rayBoard : Board :=
  { pieces := [((3, 3), rayRook),
               ((3, 6), { kind := .PAWN, color := .BLACK, square := (3, 6), moved := false })],
    on_move := .WHITE, turn_number := 0, en_pessant_file := none }

theorem looking_at_slider_ray_witness :
    ∃ d ∈ sliderPattern rayRook.kind, ∃ n : Nat, 1 ≤ n ∧
      ((3 : Int), (6 : Int)) = stepN n d rayRook.square ∧
      onBoard ((3 : Int), (6 : Int)) ∧
      (∀ k : Nat, 1 ≤ k → k < n →
        mapGet rayBoard.pieces (stepN k d rayRook.square) = none ∧
        onBoard (stepN k d rayRook.square)) ∧
      (mapGet rayBoard.pieces ((3 : Int), (6 : Int)) = none ∨
        ∃ occ, mapGet rayBoard.pieces ((3 : Int), (6 : Int)) = some occ ∧
          occ.color ≠ rayRook.color) :=
  (looking_at_slider_ray rayBoard rayRook (Or.inl rfl) (by decide) (3, 6)).mp (by decide)

/-! ### Claim C2: exact characterization of the castling destinations -/

/-- The claim's reading of the outward rook scan: some square `j ≥ 3` steps
out on the king's rank holds a same-color never-moved rook, and every
square strictly between the two-steps-away square and it is empty. -/
def RookScanSpec (b : Board) (piece : Piece) (direction : Int) : Prop :=
  ∃ j : Int, 3 ≤ j ∧
    (∃ occ, mapGet b.pieces
        (piece.square.1 + direction * j, piece.square.2) = some occ ∧
      occ.kind = .ROOK ∧ occ.color = piece.color ∧ occ.moved = false) ∧
    ∀ i : Int, 3 ≤ i → i < j →
      mapGet b.pieces (piece.square.1 + direction * i, piece.square.2) = none

theorem castleScanGo_sound (b : Board) (piece : Piece) (direction : Int) :
    ∀ (fuel : Nat) (dist : Int),
      castleScanGo b piece direction fuel dist = true →
      ∃ j : Int, dist + 1 ≤ j ∧
        (∃ occ, mapGet b.pieces
            (piece.square.1 + direction * j, piece.square.2) = some occ ∧
          occ.kind = .ROOK ∧ occ.color = piece.color ∧ occ.moved = false) ∧
        ∀ i : Int, dist + 1 ≤ i → i < j →
          mapGet b.pieces (piece.square.1 + direction * i, piece.square.2) = none := by
  intro fuel
  induction fuel with
  | zero => intro dist h; cases h
  | succ fuel ih =>
    intro dist h
    simp only [castleScanGo] at h
    split at h
    · cases hg : mapGet b.pieces
          (piece.square.1 + direction * (dist + 1), piece.square.2) with
      | none =>
        rw [hg] at h
        replace h : castleScanGo b piece direction fuel (dist + 1) = true := h
        obtain ⟨j, hj1, hrook, hint⟩ := ih (dist + 1) h
        refine ⟨j, by omega, hrook, ?_⟩
        intro i hi1 hi2
        by_cases heq : i = dist + 1
        · rw [heq]; exact hg
        · exact hint i (by omega) hi2
      | some occ =>
        rw [hg] at h
        replace h : (decide (occ.kind = PieceKind.ROOK) &&
            decide (occ.color = piece.color) && decide (occ.moved = false)) = true := h
        simp only [Bool.and_eq_true, decide_eq_true_eq] at h
        exact ⟨dist + 1, le_refl _, ⟨occ, hg, h.1.1, h.1.2, h.2⟩,
          fun i hi1 hi2 => by omega⟩
    · cases h

theorem castleScanGo_complete (b : Board) (piece : Piece) (direction : Int)
    (hdir : direction = 1 ∨ direction = -1) (hob : onBoard piece.square)
    (hkeys : ∀ e ∈ b.pieces, onBoard e.1) :
    ∀ (fuel : Nat) (dist j : Int), 2 ≤ dist → dist + 1 ≤ j → j ≤ dist + fuel →
      (∃ occ, mapGet b.pieces
          (piece.square.1 + direction * j, piece.square.2) = some occ ∧
        occ.kind = .ROOK ∧ occ.color = piece.color ∧ occ.moved = false) →
      (∀ i : Int, dist + 1 ≤ i → i < j →
        mapGet b.pieces (piece.square.1 + direction * i, piece.square.2) = none) →
      castleScanGo b piece direction fuel dist = true := by
  intro fuel
  induction fuel with
  | zero =>
    intro dist j h2 hj1 hj2 _ _
    exfalso
    omega
  | succ fuel ih =>
    intro dist j h2 hj1 hj2 hrook hint
    obtain ⟨occ, hocc, hr1, hr2, hr3⟩ := hrook
    have hrob : onBoard (piece.square.1 + direction * j, piece.square.2) :=
      hkeys _ (mapGet_mem _ _ _ hocc)
    have ha1 : 0 ≤ piece.square.1 + direction * j := hrob.1
    have ha2 : piece.square.1 + direction * j ≤ 7 := hrob.2.1
    have hx1 : 0 ≤ piece.square.1 := hob.1
    have hx2 : piece.square.1 ≤ 7 := hob.2.1
    have hwin : 0 ≤ piece.square.1 + direction * dist ∧
        piece.square.1 + direction * dist < 8 := by
      rcases hdir with rfl | rfl
      · simp only [one_mul] at ha1 ha2 ⊢
        omega
      · simp only [neg_one_mul] at ha1 ha2 ⊢
        omega
    simp only [castleScanGo]
    rw [if_pos hwin]
    by_cases hjd : j = dist + 1
    · subst hjd
      rw [hocc]
      show (decide (occ.kind = PieceKind.ROOK) &&
        decide (occ.color = piece.color) && decide (occ.moved = false)) = true
      simp [hr1, hr2, hr3]
    · have hnone : mapGet b.pieces
          (piece.square.1 + direction * (dist + 1), piece.square.2) = none :=
        hint (dist + 1) (le_refl _) (by omega)
      rw [hnone]
      show castleScanGo b piece direction fuel (dist + 1) = true
      exact ih (dist + 1) j (by omega) (by omega) (by omega)
        ⟨occ, hocc, hr1, hr2, hr3⟩ (fun i hi1 hi2 => hint i (by omega) hi2)

theorem castleScan_iff (b : Board) (piece : Piece) (direction : Int)
    (hdir : direction = 1 ∨ direction = -1) (hob : onBoard piece.square)
    (hkeys : ∀ e ∈ b.pieces, onBoard e.1) :
    castleScan b piece direction = true ↔ RookScanSpec b piece direction := by
  constructor
  · intro h
    obtain ⟨j, hj1, hrook, hint⟩ := castleScanGo_sound b piece direction 12 2 h
    exact ⟨j, by omega, hrook, fun i hi1 hi2 => hint i (by omega) hi2⟩
  · rintro ⟨j, hj3, hrook, hint⟩
    obtain ⟨occ, hocc, hr1, hr2, hr3⟩ := hrook
    have hrob : onBoard (piece.square.1 + direction * j, piece.square.2) :=
      hkeys _ (mapGet_mem _ _ _ hocc)
    have ha1 : 0 ≤ piece.square.1 + direction * j := hrob.1
    have ha2 : piece.square.1 + direction * j ≤ 7 := hrob.2.1
    have hx1 : 0 ≤ piece.square.1 := hob.1
    have hx2 : piece.square.1 ≤ 7 := hob.2.1
    have hj14 : j ≤ 2 + 12 := by
      rcases hdir with rfl | rfl
      · simp only [one_mul] at ha1 ha2
        omega
      · simp only [neg_one_mul] at ha1 ha2
        omega
    exact castleScanGo_complete b piece direction hdir hob hkeys 12 2 j
      (le_refl 2) (by omega) hj14 ⟨occ, hocc, hr1, hr2, hr3⟩
      (fun i hi1 hi2 => hint i (by omega) hi2)

theorem looking_at_king_shape (b : Board) (piece : Piece)
    (hk : piece.kind = .KING) :
    ∀ c ∈ looking_at b piece, ∃ d ∈ KING_DELTAS, c = stepD piece.square d := by
  intro c hc
  unfold looking_at at hc
  rw [hk] at hc
  simp only [] at hc
  rw [List.mem_filterMap] at hc
  obtain ⟨d, hd, hf⟩ := hc
  refine ⟨d, hd, ?_⟩
  split at hf
  · split at hf
    · split at hf
      · cases hf
      · cases hf; rfl
    · cases hf; rfl
  · cases hf

theorem two_away_not_candidate (b : Board) (piece : Piece)
    (hk : piece.kind = .KING) (d : Int) (hd : d = 1 ∨ d = -1) :
    (piece.square.1 + d * 2, piece.square.2) ∉ looking_at b piece := by
  intro hmem
  obtain ⟨dd, hdd, heq⟩ := looking_at_king_shape b piece hk _ hmem
  have h1 : piece.square.1 + d * 2 = piece.square.1 + dd.1 := by
    have := congrArg Prod.fst heq
    simpa [stepD] using this
  have hdd1 : dd.1 = -1 ∨ dd.1 = 0 ∨ dd.1 = 1 := by
    have hall : ∀ e ∈ KING_DELTAS, e.1 = -1 ∨ e.1 = 0 ∨ e.1 = 1 := by decide
    exact hall dd hdd
  rcases hd with rfl | rfl <;> rcases hdd1 with h2 | h2 | h2 <;> omega

theorem filterSelfCheck_subset (b : Board) (piece : Piece) :
    ∀ (l out : List Coordinate), filterSelfCheck b piece l = some out →
      ∀ m ∈ out, m ∈ l := by
  intro l
  induction l with
  | nil => intro out h m hm; cases h; cases hm
  | cons x xs ih =>
    intro out h m hm
    simp only [filterSelfCheck] at h
    cases hk2 : findKing (simBoard b piece x).pieces piece.color with
    | none => rw [hk2] at h; cases h
    | some king =>
      rw [hk2] at h
      cases hrest : filterSelfCheck b piece xs with
      | none => rw [hrest] at h; cases h
      | some rest =>
        rw [hrest] at h
        cases h
        by_cases hchk : is_checked (simBoard b piece x) king = true
        · rw [if_pos hchk] at hm
          exact List.mem_cons_of_mem _ (ih rest hrest m hm)
        · rw [if_neg hchk] at hm
          rcases List.mem_cons.mp hm with h1 | h2
          · subst h1; exact List.mem_cons_self _ _
          · exact List.mem_cons_of_mem _ (ih rest hrest m h2)

theorem candidateMoves_nonpawn (b : Board) (piece : Piece)
    (h : ¬ piece.kind = .PAWN) :
    candidateMoves b piece = looking_at b piece := by
  simp only [candidateMoves]
  rw [if_neg h]

theorem enPassantStage_nonpawn (b : Board) (piece : Piece)
    (moves : List Coordinate) (h : ¬ piece.kind = .PAWN) :
    enPassantStage b piece moves = moves := by
  unfold enPassantStage
  rw [if_neg (fun hc => h hc.1)]

theorem castleStage_of_king (b : Board) (piece : Piece)
    (hk : piece.kind = .KING) (hm : piece.moved = false)
    (hc : is_checked b piece = false) (moves : List Coordinate) :
    castleStage b piece moves =
      castleDir b piece (castleDir b piece moves (-1)) 1 := by
  unfold castleStage
  rw [if_pos ⟨hk, hm, hc⟩]

theorem castleStage_stuck (b : Board) (piece : Piece) (moves : List Coordinate)
    (h : ¬ (piece.kind = .KING ∧ piece.moved = false ∧ is_checked b piece = false)) :
    castleStage b piece moves = moves := by
  unfold castleStage
  rw [if_neg h]

theorem mem_castleDir_iff (b : Board) (piece : Piece) (moves : List Coordinate)
    (direction : Int) (c : Coordinate) :
    c ∈ castleDir b piece moves direction ↔
      c ∈ moves ∨
        (((piece.square.1 + direction, piece.square.2) ∈ moves ∧
          mapGet b.pieces
            (piece.square.1 + direction * 2, piece.square.2) = none ∧
          is_checked b
            { kind := .KING, color := piece.color,
              square := (piece.square.1 + direction * 2, piece.square.2),
              moved := false } = false ∧
          castleScan b piece direction = true) ∧
         c = (piece.square.1 + direction * 2, piece.square.2)) := by
  simp only [castleDir]
  split
  · rename_i hcond
    rw [List.mem_append, List.mem_singleton]
    constructor
    · rintro (h | h)
      · exact Or.inl h
      · exact Or.inr ⟨hcond, h⟩
    · rintro (h | ⟨-, h⟩)
      · exact Or.inl h
      · exact Or.inr h
  · rename_i hcond
    constructor
    · exact Or.inl
    · rintro (h | ⟨hc, -⟩)
      · exact h
      · exact absurd hc hcond

/-- Claim C2: for a king, the square two files away in direction `d` is in
the `get_valid_moves` result exactly when the king has never moved, is not
currently checked, the adjacent square in direction `d` survived the
self-check filter, the two-away square is empty, a synthetic same-color
king standing there would not be checked, and the first occupied square
scanning further outward is a same-color never-moved rook. -/
theorem get_valid_moves_castle_iff (b : Board) (piece : Piece) (d : Int)
    (hk : piece.kind = .KING) (hd : d = 1 ∨ d = -1) (hob : onBoard piece.square)
    (hkeys : ∀ e ∈ b.pieces, onBoard e.1) (ms fs : List Coordinate)
    (hms : get_valid_moves b piece = some ms)
    (hfs : filterSelfCheck b piece (candidateMoves b piece) = some fs) :
    (piece.square.1 + d * 2, piece.square.2) ∈ ms ↔
      (piece.moved = false ∧ is_checked b piece = false ∧
       (piece.square.1 + d, piece.square.2) ∈ fs ∧
       mapGet b.pieces (piece.square.1 + d * 2, piece.square.2) = none ∧
       is_checked b
         { kind := .KING, color := piece.color,
           square := (piece.square.1 + d * 2, piece.square.2),
           moved := false } = false ∧
       RookScanSpec b piece d) := by
  have hmseq : ms = enPassantStage b piece (castleStage b piece fs) := by
    unfold get_valid_moves at hms
    rw [hfs] at hms
    exact (Option.some.inj hms).symm
  rw [enPassantStage_nonpawn b piece _ (by rw [hk]; intro hc; cases hc)] at hmseq
  subst hmseq
  have hnotfs : ∀ dd : Int, dd = 1 ∨ dd = -1 →
      (piece.square.1 + dd * 2, piece.square.2) ∉ fs := by
    intro dd hdd hmem
    have hcand := filterSelfCheck_subset b piece _ fs hfs _ hmem
    rw [candidateMoves_nonpawn b piece (by rw [hk]; intro hc; cases hc)] at hcand
    exact two_away_not_candidate b piece hk dd hdd hcand
  by_cases hmoved : piece.moved = false
  case neg =>
    rw [castleStage_stuck b piece fs (fun hc => hmoved hc.2.1)]
    constructor
    · intro hmem; exact absurd hmem (hnotfs d hd)
    · rintro ⟨h1, -⟩; exact absurd h1 hmoved
  case pos =>
    by_cases hchk : is_checked b piece = false
    case neg =>
      rw [castleStage_stuck b piece fs (fun hc => hchk hc.2.2)]
      constructor
      · intro hmem; exact absurd hmem (hnotfs d hd)
      · rintro ⟨-, h2, -⟩; exact absurd h2 hchk
    case pos =>
      rw [castleStage_of_king b piece hk hmoved hchk fs]
      have hscan : ∀ dd : Int, dd = 1 ∨ dd = -1 →
          (castleScan b piece dd = true ↔ RookScanSpec b piece dd) :=
        fun dd hdd => castleScan_iff b piece dd hdd hob hkeys
      have hadj : (piece.square.1 + 1, piece.square.2) ∈ castleDir b piece fs (-1) ↔
          (piece.square.1 + 1, piece.square.2) ∈ fs := by
        rw [mem_castleDir_iff]
        constructor
        · rintro (h | ⟨-, hc⟩)
          · exact h
          · exfalso
            have h2 : piece.square.1 + 1 = piece.square.1 + -1 * 2 :=
              congrArg Prod.fst hc
            omega
        · exact Or.inl
      rcases hd with rfl | rfl
      · rw [mem_castleDir_iff]
        constructor
        · rintro (hin | ⟨⟨hadj1, hemp, hsyn, hsc⟩, -⟩)
          · rw [mem_castleDir_iff] at hin
            rcases hin with hin | ⟨-, hc⟩
            · exact absurd hin (hnotfs 1 (Or.inl rfl))
            · exfalso
              have h2 : piece.square.1 + 1 * 2 = piece.square.1 + -1 * 2 :=
                congrArg Prod.fst hc
              omega
          · exact ⟨hmoved, hchk, hadj.mp hadj1, hemp, hsyn,
              (hscan 1 (Or.inl rfl)).mp hsc⟩
        · rintro ⟨-, -, hadj1, hemp, hsyn, hrs⟩
          exact Or.inr ⟨⟨hadj.mpr hadj1, hemp, hsyn,
            (hscan 1 (Or.inl rfl)).mpr hrs⟩, rfl⟩
      · rw [mem_castleDir_iff]
        constructor
        · rintro (hin | ⟨-, hc⟩)
          · rw [mem_castleDir_iff] at hin
            rcases hin with hin | ⟨⟨hadjm, hemp, hsyn, hsc⟩, -⟩
            · exact absurd hin (hnotfs (-1) (Or.inr rfl))
            · exact ⟨hmoved, hchk, hadjm, hemp, hsyn,
                (hscan (-1) (Or.inr rfl)).mp hsc⟩
          · exfalso
            have h2 : piece.square.1 + -1 * 2 = piece.square.1 + 1 * 2 :=
              congrArg Prod.fst hc
            omega
        · rintro ⟨-, -, hadj1, hemp, hsyn, hrs⟩
          exact Or.inl ((mem_castleDir_iff b piece fs (-1) _).mpr
            (Or.inr ⟨⟨hadj1, hemp, hsyn,
              (hscan (-1) (Or.inr rfl)).mpr hrs⟩, rfl⟩))

theorem get_valid_moves_castle_iff_witness :
    castleTrapKing.moved = false ∧
    is_checked castleTrapBoard castleTrapKing = false ∧
    (castleTrapKing.square.1 + -1, castleTrapKing.square.2) ∈
      ([(3, 0), (3, 1), (4, 1), (5, 0), (5, 1)] : List Coordinate) ∧
    mapGet castleTrapBoard.pieces
      (castleTrapKing.square.1 + -1 * 2, castleTrapKing.square.2) = none ∧
    is_checked castleTrapBoard
      { kind := .KING, color := castleTrapKing.color,
        square := (castleTrapKing.square.1 + -1 * 2, castleTrapKing.square.2),
        moved := false } = false ∧
    RookScanSpec castleTrapBoard castleTrapKing (-1) :=
  (get_valid_moves_castle_iff castleTrapBoard castleTrapKing (-1) rfl
    (Or.inr rfl) (by decide) (by decide)
    [(3, 0), (3, 1), (4, 1), (5, 0), (5, 1), (2, 0)]
    [(3, 0), (3, 1), (4, 1), (5, 0), (5, 1)]
    (by decide) (by decide)).mp (by decide)

def kinglessBoard : Board :=
  { pieces := [((0, 0), { kind := .ROOK, color := .WHITE, square := (0, 0), moved := false })],
    on_move := .WHITE, turn_number := 0, en_pessant_file := none }

def kinglessRook : Piece :=
  { kind := .ROOK, color := .WHITE, square := (0, 0), moved := false }

theorem get_valid_moves_king_requirement_witness :
    get_valid_moves kinglessBoard kinglessRook = none ∧
    ∃ ms, get_valid_moves rookCheckBoard rookCheckKing = some ms :=
  ⟨(get_valid_moves_king_requirement kinglessBoard kinglessRook (by decide)).1
      (by decide) (by decide),
   (get_valid_moves_king_requirement rookCheckBoard rookCheckKing (by decide)).2
      ⟨(0, 5), rookCheckKing, by decide, rfl, rfl⟩⟩

end BevyChess
